import Mathlib

/-!
Verification of the core of the `ai-review` bot: diff parsing, edit-distance
similarity search, comment validation/repair, retry, and the LLM-issue-to-comment
mapper.  Each TypeScript function from the repository is shallowly embedded as an
executable Lean definition; strings are `String`/`List Char`, JavaScript numbers
that only ever hold line counts are `ℤ`/`ℕ`, and the floating-point similarity
scores (which can be `Infinity` or `NaN` in the source) are modelled by an
explicit `JsNum` wrapper around `ℚ`.
-/

namespace AiReview

/-! ### Whitespace normalisation (`normalizeCode`, src/utils.ts:83-85)

`normalizeCode(code) = code.trim().replace(/\s+/g, ' ')`.  `jsWs` is the set of
characters matched by the regex class `\s` (restricted to the characters that
occur in source files: ASCII whitespace plus NBSP). -/

def jsWs (c : Char) : Bool :=
  c = ' ' || c = '\t' || c = '\n' || c = '\r' || c = '\x0b' || c = '\x0c' || c = ' '

/-- Model of `String.prototype.trim`: drop whitespace from both ends. -/
def jsTrim (s : List Char) : List Char :=
  ((s.dropWhile jsWs).reverse.dropWhile jsWs).reverse

/-- Model of `.replace(/\s+/g, ' ')`: each maximal run of whitespace becomes a
single space (the regex is global and `\s+` is greedy, so it matches exactly the
maximal whitespace runs, left to right).  The scan carries a flag recording
whether the previous character was inside a whitespace run: the first character
of a run emits the space, the rest of the run is dropped. -/
def collapseGo : Bool → List Char → List Char
  | _, [] => []
  | inRun, c :: cs =>
    if jsWs c then
      if inRun then collapseGo true cs else ' ' :: collapseGo true cs
    else c :: collapseGo false cs

def collapseWs (l : List Char) : List Char :=
  collapseGo false l

/-- Embedding of `normalizeCode` (src/src/utils.ts:83-85). -/
def normalizeCode (s : List Char) : List Char :=
  collapseWs (jsTrim s)

example : normalizeCode "  a \t b  ".toList = "a b".toList := by decide
example : normalizeCode "".toList = [] := by decide
example : normalizeCode "   ".toList = [] := by decide

/-! ### Levenshtein distance (`levenshteinDistance`, src/utils.ts:62-80)

The source fills a `(|b|+1) × (|a|+1)` matrix row by row;
`matrix[j][i] = min(matrix[j][i-1]+1, matrix[j-1][i]+1, matrix[j-1][i-1]+cost)`.
We embed the row-by-row computation literally (`levRowAux`, `levLoop`) and then
relate it to the textbook recursive edit distance `lev` in order to prove the
algebraic claims. -/

/-- One row of the DP table, cells `i = 1 .. |a|`.  Arguments: the current
`b`-character, the remaining `a`-characters, the diagonal value
`matrix[j-1][i-1]`, the rest of the previous row from position `i`, and the cell
to the left `matrix[j][i-1]`. -/
def levRowAux (bc : Char) : List Char → ℕ → List ℕ → ℕ → List ℕ
  | [], _, _, _ => []
  | _ :: _, _, [], _ => []
  | a :: as, diag, up :: ups, left =>
    let cost := if a = bc then 0 else 1
    let v := min (left + 1) (min (up + 1) (diag + cost))
    v :: levRowAux bc as up ups v

/-- Row `j` of the DP table from row `j-1`: first cell is `matrix[j][0] = j`. -/
def levRow (bc : Char) (a : List Char) (prev : List ℕ) (j : ℕ) : List ℕ :=
  j :: levRowAux bc a (prev.headD 0) prev.tail j

/-- Fold the remaining `b`-characters over the rows; `j` is the index of the row
already computed. -/
def levLoop (a : List Char) : List Char → ℕ → List ℕ → List ℕ
  | [], _, row => row
  | bc :: bs, j, row => levLoop a bs (j + 1) (levRow bc a row (j + 1))

/-- Embedding of `levenshteinDistance` (src/src/utils.ts:62-80): run the DP and
return `matrix[b.length][a.length]`. -/
def levenshteinDistance (a b : List Char) : ℕ :=
  (levLoop a b 0 (List.range (a.length + 1))).getD a.length 0

/-- Textbook recursive edit distance, used as the specification the DP is proved
against. -/
def lev : List Char → List Char → ℕ
  | [], ys => ys.length
  | x :: xs, [] => (x :: xs).length
  | x :: xs, y :: ys =>
    min (lev xs ys + if x = y then 0 else 1)
      (min (lev (x :: xs) ys + 1) (lev xs (y :: ys) + 1))

example : levenshteinDistance "kitten".toList "sitting".toList = 3 := by decide
example : levenshteinDistance "abc".toList "abc".toList = 0 := by decide
example : levenshteinDistance "".toList "abc".toList = 3 := by decide

/-! ### The DP computes the textbook distance (on reversed inputs)

Row `j` of the table at column `i` holds `lev ((a.take i).reverse) ((b.take j).reverse)`.
We express the row as `rowFrom yt acc as`, where `acc` is the reversed consumed
`a`-prefix, `as` the remaining `a`-characters and `yt` the reversed consumed
`b`-prefix. -/

def rowFrom (yt : List Char) : List Char → List Char → List ℕ
  | _, [] => []
  | acc, x :: xs => lev (x :: acc) yt :: rowFrom yt (x :: acc) xs

theorem lev_nil_left (ys : List Char) : lev [] ys = ys.length := by
  cases ys <;> simp [lev]

theorem lev_nil_right (xs : List Char) : lev xs [] = xs.length := by
  cases xs <;> simp [lev]

theorem lev_cons_cons (x y : Char) (xs ys : List Char) :
    lev (x :: xs) (y :: ys) =
      min (lev xs ys + if x = y then 0 else 1)
        (min (lev (x :: xs) ys + 1) (lev xs (y :: ys) + 1)) := by
  simp [lev]

theorem levRowAux_spec (bc : Char) (yt : List Char) (as acc : List Char) :
    levRowAux bc as (lev acc yt) (rowFrom yt acc as) (lev acc (bc :: yt)) =
      rowFrom (bc :: yt) acc as := by
  induction as generalizing acc with
  | nil => simp [levRowAux, rowFrom]
  | cons x xs ih =>
    simp only [rowFrom, levRowAux]
    have hv : min (lev acc (bc :: yt) + 1)
        (min (lev (x :: acc) yt + 1) (lev acc yt + if x = bc then 0 else 1)) =
        lev (x :: acc) (bc :: yt) := by
      rw [lev_cons_cons]
      rcases Decidable.em (x = bc) with h | h <;> simp [h] <;> omega
    rw [hv]
    exact congrArg _ (ih (x :: acc))

theorem levRow_spec (bc : Char) (yt a : List Char) :
    levRow bc a (lev [] yt :: rowFrom yt [] a) (yt.length + 1) =
      lev [] (bc :: yt) :: rowFrom (bc :: yt) [] a := by
  have hlen : yt.length + 1 = lev [] (bc :: yt) := by simp [lev_nil_left]
  simp only [levRow, List.headD, List.tail]
  rw [hlen]
  exact congrArg _ (levRowAux_spec bc yt a [])

theorem levLoop_spec (a : List Char) (bs yt : List Char) :
    levLoop a bs yt.length (lev [] yt :: rowFrom yt [] a) =
      lev [] (bs.reverse ++ yt) :: rowFrom (bs.reverse ++ yt) [] a := by
  induction bs generalizing yt with
  | nil => simp [levLoop]
  | cons bc bs ih =>
    simp only [levLoop]
    rw [levRow_spec]
    have h := ih (bc :: yt)
    simp only [List.length_cons] at h
    rw [h]
    simp [List.append_assoc]

theorem rowFrom_nil (as acc : List Char) :
    rowFrom [] acc as = (List.range as.length).map (fun k => acc.length + 1 + k) := by
  induction as generalizing acc with
  | nil => simp [rowFrom]
  | cons x xs ih =>
    simp only [rowFrom, lev_nil_right, List.length_cons, List.length_range,
      List.range_succ_eq_map, List.map_cons, List.map_map]
    refine List.cons_eq_cons.mpr ⟨by omega, ?_⟩
    rw [ih (x :: acc)]
    apply List.map_congr_left
    intro k _
    simp only [Function.comp, List.length_cons]
    omega

theorem range_eq_row (a : List Char) :
    List.range (a.length + 1) = lev [] [] :: rowFrom [] [] a := by
  rw [List.range_succ_eq_map, rowFrom_nil]
  refine List.cons_eq_cons.mpr ⟨by simp [lev_nil_left], ?_⟩
  apply List.map_congr_left
  intro k _
  simp only [List.length_nil]
  omega

theorem row_getD (yt : List Char) (as acc : List Char) :
    (lev acc yt :: rowFrom yt acc as).getD as.length 0 = lev (as.reverse ++ acc) yt := by
  induction as generalizing acc with
  | nil => simp
  | cons x xs ih =>
    simp only [rowFrom, List.length_cons, List.getD_cons_succ]
    rw [ih (x :: acc)]
    simp

/-- The row-by-row DP from the source computes the textbook edit distance of the
reversed inputs (edit distance is reversal-invariant, but we never need that
fact: symmetry and reflexivity transfer directly). -/
theorem levenshteinDistance_eq (a b : List Char) :
    levenshteinDistance a b = lev a.reverse b.reverse := by
  unfold levenshteinDistance
  rw [range_eq_row]
  have h0 : (0 : ℕ) = ([] : List Char).length := rfl
  rw [h0, levLoop_spec]
  rw [List.append_nil]
  have := row_getD (b.reverse ++ []) a []
  simpa using this

theorem lev_self (xs : List Char) : lev xs xs = 0 := by
  induction xs with
  | nil => simp [lev]
  | cons x xs ih => simp [lev_cons_cons, ih]

theorem lev_comm (xs ys : List Char) : lev xs ys = lev ys xs := by
  induction xs generalizing ys with
  | nil => simp [lev_nil_left, lev_nil_right]
  | cons x xs ihx =>
    induction ys with
    | nil => simp [lev_nil_left, lev_nil_right]
    | cons y ys ihy =>
      rw [lev_cons_cons, lev_cons_cons]
      have h1 := ihx ys
      have h2 := ihx (y :: ys)
      have hc : (if x = y then (0 : ℕ) else 1) = if y = x then 0 else 1 := by
        simp [eq_comm]
      rw [h1, h2, hc, ihy]
      omega

/-- C7: `levenshteinDistance` computes the classic unit-cost edit distance: it is
symmetric, zero on equal inputs, and maps ("kitten","sitting") to 3. -/
theorem levenshtein_classic_properties (a b : List Char) :
    levenshteinDistance a b = levenshteinDistance b a ∧
    levenshteinDistance a a = 0 ∧
    levenshteinDistance "kitten".toList "sitting".toList = 3 := by
  refine ⟨?_, ?_, by decide⟩
  · rw [levenshteinDistance_eq, levenshteinDistance_eq, lev_comm]
  · rw [levenshteinDistance_eq, lev_self]

/-! ### Idempotence of `normalizeCode` -/

def headNotWs (l : List Char) : Prop :=
  ∀ c, l.head? = some c → jsWs c = false

def lastNotWs (l : List Char) : Prop :=
  ∀ c, l.getLast? = some c → jsWs c = false

def noAdjacentWs (l : List Char) : Prop :=
  List.Chain' (fun x y => ¬(jsWs x = true ∧ jsWs y = true)) l

def allWsSpace (l : List Char) : Prop :=
  ∀ c ∈ l, jsWs c = true → c = ' '

theorem dropWhile_head_false (p : Char → Bool) (l : List Char) (c : Char)
    (hc : (l.dropWhile p).head? = some c) : p c = false := by
  induction l with
  | nil => simp [List.dropWhile] at hc
  | cons a l ih =>
    rw [List.dropWhile_cons] at hc
    by_cases h : p a = true
    · rw [if_pos h] at hc
      exact ih hc
    · rw [if_neg h] at hc
      simp only [List.head?_cons, Option.some.injEq] at hc
      subst hc
      exact Bool.eq_false_iff.mpr h

theorem dropWhile_eq_self (p : Char → Bool) (l : List Char)
    (hl : ∀ c, l.head? = some c → p c = false) : l.dropWhile p = l := by
  cases l with
  | nil => rfl
  | cons a l =>
    have := hl a (by simp)
    rw [List.dropWhile_cons, if_neg (by simp [this])]

theorem getLast?_suffix {s l : List Char} (h : s <:+ l) (hs : s ≠ []) :
    s.getLast? = l.getLast? := by
  obtain ⟨t, rfl⟩ := h
  exact (List.getLast?_append_of_ne_nil t hs).symm

theorem jsTrim_headNotWs (s : List Char) : headNotWs (jsTrim s) := by
  intro c hc
  unfold jsTrim at hc
  rw [List.head?_reverse] at hc
  rcases hY : (s.dropWhile jsWs).reverse.dropWhile jsWs with _ | ⟨z, zs⟩
  · rw [hY] at hc
    simp at hc
  · rw [hY] at hc
    have hsuf : (z :: zs) <:+ (s.dropWhile jsWs).reverse := by
      rw [← hY]
      exact List.dropWhile_suffix jsWs
    rw [getLast?_suffix hsuf (by simp), List.getLast?_reverse] at hc
    exact dropWhile_head_false jsWs _ c hc

theorem jsTrim_lastNotWs (s : List Char) : lastNotWs (jsTrim s) := by
  intro c hc
  unfold jsTrim at hc
  rw [List.getLast?_reverse] at hc
  exact dropWhile_head_false jsWs _ c hc

theorem jsTrim_eq_self (l : List Char) (h1 : headNotWs l) (h2 : lastNotWs l) :
    jsTrim l = l := by
  unfold jsTrim
  rw [dropWhile_eq_self jsWs l h1]
  rw [dropWhile_eq_self jsWs l.reverse (fun c hc => h2 c (by rwa [List.head?_reverse] at hc))]
  exact List.reverse_reverse l

theorem collapseGo_true_head (l : List Char) (c : Char)
    (hc : (collapseGo true l).head? = some c) : jsWs c = false := by
  induction l with
  | nil => simp [collapseGo] at hc
  | cons a l ih =>
    by_cases h : jsWs a = true
    · rw [show collapseGo true (a :: l) = collapseGo true l by simp [collapseGo, h]] at hc
      exact ih hc
    · rw [show collapseGo true (a :: l) = a :: collapseGo false l by
        simp [collapseGo, h]] at hc
      simp only [List.head?_cons, Option.some.injEq] at hc
      subst hc
      exact Bool.eq_false_iff.mpr h

theorem collapseGo_allWsSpace (b : Bool) (l : List Char) :
    allWsSpace (collapseGo b l) := by
  induction l generalizing b with
  | nil => intro c hc; simp [collapseGo] at hc
  | cons a l ih =>
    intro c hc hws
    by_cases h : jsWs a = true
    · cases b with
      | false =>
        rw [show collapseGo false (a :: l) = ' ' :: collapseGo true l by
          simp [collapseGo, h]] at hc
        rcases List.mem_cons.mp hc with rfl | hmem
        · rfl
        · exact ih true c hmem hws
      | true =>
        rw [show collapseGo true (a :: l) = collapseGo true l by simp [collapseGo, h]] at hc
        exact ih true c hc hws
    · rw [show collapseGo b (a :: l) = a :: collapseGo false l by
        cases b <;> simp [collapseGo, h]] at hc
      rcases List.mem_cons.mp hc with rfl | hmem
      · exact absurd hws h
      · exact ih false c hmem hws

theorem collapseGo_headNotWs (l : List Char) (hl : headNotWs l) :
    headNotWs (collapseGo false l) := by
  cases l with
  | nil => intro c hc; simp [collapseGo] at hc
  | cons a l =>
    have ha := hl a (by simp)
    intro c hc
    rw [show collapseGo false (a :: l) = a :: collapseGo false l by
      simp [collapseGo, ha]] at hc
    simp only [List.head?_cons, Option.some.injEq] at hc
    subst hc
    exact ha

theorem collapseGo_chain (b : Bool) (l : List Char) :
    noAdjacentWs (collapseGo b l) := by
  induction l generalizing b with
  | nil => simp [collapseGo, noAdjacentWs]
  | cons a l ih =>
    by_cases h : jsWs a = true
    · cases b with
      | false =>
        rw [show collapseGo false (a :: l) = ' ' :: collapseGo true l by
          simp [collapseGo, h]]
        refine List.chain'_cons'.mpr ⟨?_, ih true⟩
        intro y hy
        have := collapseGo_true_head l y hy
        simp [this]
      | true =>
        rw [show collapseGo true (a :: l) = collapseGo true l by simp [collapseGo, h]]
        exact ih true
    · rw [show collapseGo b (a :: l) = a :: collapseGo false l by
        cases b <;> simp [collapseGo, h]]
      refine List.chain'_cons'.mpr ⟨?_, ih false⟩
      intro y _
      simp [h]

theorem collapseGo_nil_all (b : Bool) (l : List Char) (h : collapseGo b l = []) :
    ∀ x ∈ l, jsWs x = true := by
  induction l generalizing b with
  | nil => simp
  | cons a l ih =>
    by_cases ha : jsWs a = true
    · cases b with
      | false => simp [collapseGo, ha] at h
      | true =>
        rw [show collapseGo true (a :: l) = collapseGo true l by simp [collapseGo, ha]] at h
        intro x hx
        rcases List.mem_cons.mp hx with rfl | hmem
        · exact ha
        · exact ih true h x hmem
    · rw [show collapseGo b (a :: l) = a :: collapseGo false l by
        cases b <;> simp [collapseGo, ha]] at h
      cases h

theorem lastNotWs_tail {a : Char} {l : List Char} (h : lastNotWs (a :: l)) :
    lastNotWs l := by
  cases l with
  | nil => intro c hc; simp at hc
  | cons x xs =>
    intro c hc
    exact h c (by rwa [List.getLast?_cons_cons])

theorem getLast?_cons_ne_nil {a : Char} {l : List Char} (hl : l ≠ []) :
    (a :: l).getLast? = l.getLast? := by
  cases l with
  | nil => exact absurd rfl hl
  | cons x xs => exact List.getLast?_cons_cons

theorem collapseGo_lastNotWs (b : Bool) (l : List Char) (hl : lastNotWs l) :
    lastNotWs (collapseGo b l) := by
  induction l generalizing b with
  | nil => intro c hc; simp [collapseGo] at hc
  | cons a l ih =>
    by_cases h : jsWs a = true
    · have hne : l ≠ [] := by
        rintro rfl
        have := hl a (by simp)
        rw [h] at this
        cases this
      have hl' : lastNotWs l := lastNotWs_tail hl
      cases b with
      | true =>
        rw [show collapseGo true (a :: l) = collapseGo true l by simp [collapseGo, h]]
        exact ih true hl'
      | false =>
        rw [show collapseGo false (a :: l) = ' ' :: collapseGo true l by
          simp [collapseGo, h]]
        intro c hc
        rcases hx : collapseGo true l with _ | ⟨z, zs⟩
        · exfalso
          obtain ⟨x, xs, rfl⟩ := List.exists_cons_of_ne_nil hne
          have hmem := List.getLast_mem (l := x :: xs) (by simp)
          have hws := collapseGo_nil_all true (x :: xs) hx _ hmem
          have := hl' ((x :: xs).getLast (by simp)) (List.getLast?_eq_getLast _ (by simp))
          rw [hws] at this
          cases this
        · rw [hx, List.getLast?_cons_cons] at hc
          have := ih true hl'
          rw [hx] at this
          exact this c hc
    · intro c hc
      rw [show collapseGo b (a :: l) = a :: collapseGo false l by
        cases b <;> simp [collapseGo, h]] at hc
      rcases hx : collapseGo false l with _ | ⟨z, zs⟩
      · rw [hx] at hc
        simp only [List.getLast?_singleton, Option.some.injEq] at hc
        subst hc
        exact Bool.eq_false_iff.mpr h
      · have hne : l ≠ [] := by
          rintro rfl
          simp [collapseGo] at hx
        rw [hx, getLast?_cons_ne_nil (by simp)] at hc
        have := ih false (lastNotWs_tail hl)
        rw [hx] at this
        exact this c hc

theorem collapseGo_true_eq_false (l : List Char) (hl : headNotWs l) :
    collapseGo true l = collapseGo false l := by
  cases l with
  | nil => rfl
  | cons a l =>
    have := hl a (by simp)
    simp [collapseGo, this]

theorem collapseGo_false_eq_self (l : List Char) (h1 : allWsSpace l)
    (h2 : noAdjacentWs l) (h3 : lastNotWs l) : collapseGo false l = l := by
  induction l with
  | nil => rfl
  | cons a l ih =>
    by_cases h : jsWs a = true
    · have ha : a = ' ' := h1 a (List.mem_cons_self a l) h
      have hne : l ≠ [] := by
        rintro rfl
        have := h3 a (by simp)
        rw [h] at this
        cases this
      obtain ⟨x, xs, rfl⟩ := List.exists_cons_of_ne_nil hne
      have hx : jsWs x = false := by
        have hr := (List.chain'_cons'.mp h2).1 x (by simp)
        by_contra hxx
        exact hr ⟨h, by simpa using hxx⟩
      rw [show collapseGo false (a :: x :: xs) = ' ' :: collapseGo true (x :: xs) by
        simp [collapseGo, h]]
      rw [collapseGo_true_eq_false (x :: xs) (by intro c hc; simp at hc; rwa [← hc])]
      rw [ih (fun c hc => h1 c (List.mem_cons_of_mem a hc))
        (List.chain'_cons'.mp h2).2 (lastNotWs_tail h3)]
      rw [ha]
    · rw [show collapseGo false (a :: l) = a :: collapseGo false l by
        simp [collapseGo, h]]
      rw [ih (fun c hc => h1 c (List.mem_cons_of_mem a hc))
        (List.chain'_cons'.mp h2).2 (lastNotWs_tail h3)]

/-- C8: `normalizeCode` (trim, then collapse every whitespace run to one space)
is idempotent. -/
theorem normalizeCode_idempotent (s : List Char) :
    normalizeCode (normalizeCode s) = normalizeCode s := by
  have h1 : allWsSpace (normalizeCode s) := collapseGo_allWsSpace false (jsTrim s)
  have h2 : noAdjacentWs (normalizeCode s) := collapseGo_chain false (jsTrim s)
  have h3 : lastNotWs (normalizeCode s) :=
    collapseGo_lastNotWs false (jsTrim s) (jsTrim_lastNotWs s)
  have h4 : headNotWs (normalizeCode s) :=
    collapseGo_headNotWs (jsTrim s) (jsTrim_headNotWs s)
  show collapseWs (jsTrim (normalizeCode s)) = normalizeCode s
  rw [jsTrim_eq_self _ h4 h3]
  exact collapseGo_false_eq_self _ h1 h2 h3

/-! ### JavaScript number model for similarity scores

`findMostSimilarLine` divides an edit distance by a maximum of lengths, so the
value can be a nonnegative rational, `Infinity` (the initial best) or `NaN`
(`0/0` when both normalised strings are empty).  `jsLt` is the JavaScript `<`
on these values: any comparison involving `NaN` is false, and nothing is below
`Infinity` except a finite value. -/

inductive JsNum where
  | nan : JsNum
  | inf : JsNum
  | val : ℚ → JsNum
deriving DecidableEq, Repr

def jsLt : JsNum → JsNum → Bool
  | .nan, _ => false
  | _, .nan => false
  | .inf, _ => false
  | .val _, .inf => true
  | .val a, .val b => a < b

/-- JavaScript division of two nonnegative integers: `0/0 = NaN`, `d/0 = Infinity`
for `d > 0`, exact rational otherwise. -/
def jsDiv (d m : ℕ) : JsNum :=
  if m = 0 then (if d = 0 then JsNum.nan else JsNum.inf) else JsNum.val ((d : ℚ) / m)

/-! ### `findMostSimilarLine` (src/src/utils.ts:88-116, src/src/analysis/analyzer.ts:6-26)

The scan window is `[max(0, startLine-30), min(fileLines.length, endLine+30))`;
the best match starts at `{lineNumber: startLine, similarity: Infinity}` and is
replaced whenever a strictly smaller normalised distance is found. -/

def searchStartOf (startLine : ℤ) : ℤ := max 0 (startLine - 30)

def searchEndOf (fileLines : List String) (endLine : ℤ) : ℤ :=
  min (fileLines.length : ℤ) (endLine + 30)

/-- The indices `i` scanned by the `for` loop, in scan order. -/
def windowIdxs (fileLines : List String) (startLine endLine : ℤ) : List ℤ :=
  (List.range (searchEndOf fileLines endLine - searchStartOf startLine).toNat).map
    (fun k => searchStartOf startLine + k)

/-- Similarity of scan position `i`: normalised Levenshtein distance between the
normalised target and the normalised line. -/
def simOf (nt : List Char) (fileLines : List String) (i : ℤ) : JsNum :=
  jsDiv (levenshteinDistance nt (normalizeCode (fileLines.getD i.toNat "").toList))
    (max nt.length (normalizeCode (fileLines.getD i.toNat "").toList).length)

/-- One iteration of the loop body: update the best match on strict improvement. -/
def simStep (nt : List Char) (fileLines : List String) (best : ℤ × JsNum) (i : ℤ) :
    ℤ × JsNum :=
  if jsLt (simOf nt fileLines i) best.2 then (i + 1, simOf nt fileLines i) else best

/-- Embedding of `findMostSimilarLine`: returns `(lineNumber, similarity)`. -/
def findMostSimilarLine (targetLine : String) (fileLines : List String)
    (startLine endLine : ℤ) : ℤ × JsNum :=
  (windowIdxs fileLines startLine endLine).foldl
    (simStep (normalizeCode targetLine.toList) fileLines) (startLine, JsNum.inf)

example : findMostSimilarLine "" [""] 0 1 = (0, JsNum.inf) := by decide
example : windowIdxs ["a", "b", "c"] 0 3 = [0, 1, 2] := by decide

/-! ### Exact-match behaviour of the similarity search -/

theorem lev_eq_zero_iff (xs : List Char) : ∀ ys, lev xs ys = 0 ↔ xs = ys := by
  induction xs with
  | nil =>
    intro ys
    cases ys <;> simp [lev_nil_left]
  | cons x xs ih =>
    intro ys
    cases ys with
    | nil => simp [lev_nil_right]
    | cons y ys =>
      rw [lev_cons_cons]
      by_cases hxy : x = y
      · subst hxy
        constructor
        · intro h
          have h0 : lev xs ys = 0 := by
            simp only [if_pos rfl] at h
            omega
          rw [(ih ys).mp h0]
        · intro h
          have hxs : xs = ys := (List.cons_eq_cons.mp h).2
          subst hxs
          have h0 := lev_self xs
          have hif : (if x = x then (0 : ℕ) else 1) = 0 := if_pos rfl
          rw [hif]
          omega
      · constructor
        · intro h
          rw [if_neg hxy] at h
          omega
        · intro h
          exact absurd (List.cons_eq_cons.mp h).1 hxy

theorem levenshteinDistance_eq_zero_iff (a b : List Char) :
    levenshteinDistance a b = 0 ↔ a = b := by
  rw [levenshteinDistance_eq, lev_eq_zero_iff]
  exact List.reverse_inj

/-- Reachable non-`NaN` best-match scores: `Infinity` or a positive rational. -/
def PosOrInf (n : JsNum) : Prop :=
  n = JsNum.inf ∨ ∃ x : ℚ, 0 < x ∧ n = JsNum.val x

theorem jsLt_val_zero_of_posOrInf {n : JsNum} (h : PosOrInf n) :
    jsLt (JsNum.val 0) n = true := by
  rcases h with rfl | ⟨x, hx, rfl⟩
  · rfl
  · simp [jsLt, hx]

theorem jsLt_jsDiv_val_zero (d m : ℕ) : jsLt (jsDiv d m) (JsNum.val 0) = false := by
  unfold jsDiv
  by_cases hm : m = 0
  · by_cases hd : d = 0 <;> simp [hm, hd, jsLt]
  · simp only [if_neg hm, jsLt]
    have : ¬((d : ℚ) / m < 0) :=
      not_lt.mpr (div_nonneg (Nat.cast_nonneg d) (Nat.cast_nonneg m))
    simp [this]

theorem simOf_eq_zero {nt : List Char} (fl : List String) (i : ℤ)
    (hnt : nt ≠ []) (h : normalizeCode ((fl.getD i.toNat "").toList) = nt) :
    simOf nt fl i = JsNum.val 0 := by
  unfold simOf
  rw [h]
  have hd : levenshteinDistance nt nt = 0 := (levenshteinDistance_eq_zero_iff nt nt).mpr rfl
  rw [hd]
  have hm : max nt.length nt.length ≠ 0 := by
    simp only [Nat.max_self]
    intro hh
    exact hnt (List.eq_nil_of_length_eq_zero hh)
  unfold jsDiv
  rw [if_neg hm]
  norm_num

theorem simOf_pos {nt : List Char} (fl : List String) (i : ℤ)
    (hnt : nt ≠ []) (h : normalizeCode ((fl.getD i.toNat "").toList) ≠ nt) :
    ∃ x : ℚ, 0 < x ∧ simOf nt fl i = JsNum.val x := by
  unfold simOf
  have hd : levenshteinDistance nt (normalizeCode ((fl.getD i.toNat "").toList)) ≠ 0 := by
    intro hh
    exact h ((levenshteinDistance_eq_zero_iff _ _).mp hh).symm
  have hm : max nt.length (normalizeCode ((fl.getD i.toNat "").toList)).length ≠ 0 := by
    intro hh
    exact hnt (List.eq_nil_of_length_eq_zero (by omega))
  refine ⟨_, ?_, by unfold jsDiv; rw [if_neg hm]⟩
  apply div_pos
  · exact_mod_cast Nat.pos_of_ne_zero hd
  · exact_mod_cast Nat.pos_of_ne_zero hm

theorem foldl_simStep_zero (nt : List Char) (fl : List String) :
    ∀ (B : List ℤ) (p : ℤ × JsNum), p.2 = JsNum.val 0 →
      B.foldl (simStep nt fl) p = p := by
  intro B
  induction B with
  | nil => intro p _; rfl
  | cons i B ih =>
    intro p hp
    have hstep : simStep nt fl p i = p := by
      unfold simStep
      rw [hp]
      rw [show simOf nt fl i = jsDiv (levenshteinDistance nt
        (normalizeCode ((fl.getD i.toNat "").toList)))
        (max nt.length (normalizeCode ((fl.getD i.toNat "").toList)).length) from rfl]
      rw [jsLt_jsDiv_val_zero]
      rfl
    rw [List.foldl_cons, hstep]
    exact ih p hp

theorem foldl_simStep_posOrInf {nt : List Char} (fl : List String) (hnt : nt ≠ []) :
    ∀ (A : List ℤ) (p : ℤ × JsNum),
      (∀ i ∈ A, normalizeCode ((fl.getD i.toNat "").toList) ≠ nt) → PosOrInf p.2 →
      PosOrInf ((A.foldl (simStep nt fl) p).2) := by
  intro A
  induction A with
  | nil => intro p _ hp; exact hp
  | cons i A ih =>
    intro p hA hp
    rw [List.foldl_cons]
    refine ih (simStep nt fl p i) (fun j hj => hA j (List.mem_cons_of_mem i hj)) ?_
    unfold simStep
    obtain ⟨x, hx, hval⟩ := simOf_pos fl i hnt (hA i (List.mem_cons_self i A))
    by_cases hlt : jsLt (simOf nt fl i) p.2 = true
    · rw [if_pos hlt]
      exact Or.inr ⟨x, hx, hval⟩
    · rw [if_neg hlt]
      exact hp

theorem simStep_match {nt : List Char} (i : ℤ) {fl : List String} (p : ℤ × JsNum)
    (hnt : nt ≠ []) (hm : normalizeCode ((fl.getD i.toNat "").toList) = nt)
    (hp : PosOrInf p.2) : simStep nt fl p i = (i + 1, JsNum.val 0) := by
  unfold simStep
  rw [simOf_eq_zero fl i hnt hm]
  rw [if_pos (jsLt_val_zero_of_posOrInf hp)]

/-- C4 (amended): when the normalised target is nonempty and occurs verbatim as
a normalised line within the scan window, `findMostSimilarLine` returns
similarity `0` and the 1-based number of the first such line.  (The amendment
excludes the empty normalised target: there `0/0 = NaN` and `NaN < best` is
always false, so the match is never recorded.) -/
theorem findMostSimilarLine_exact_match (target : String) (fileLines : List String)
    (startLine endLine j : ℤ) (A B : List ℤ)
    (hnt : normalizeCode target.toList ≠ [])
    (hsplit : windowIdxs fileLines startLine endLine = A ++ j :: B)
    (hA : ∀ i ∈ A,
      normalizeCode ((fileLines.getD i.toNat "").toList) ≠ normalizeCode target.toList)
    (hj : normalizeCode ((fileLines.getD j.toNat "").toList) = normalizeCode target.toList) :
    findMostSimilarLine target fileLines startLine endLine = (j + 1, JsNum.val 0) := by
  unfold findMostSimilarLine
  rw [hsplit, List.foldl_append]
  have hp : PosOrInf ((A.foldl (simStep (normalizeCode target.toList) fileLines)
      (startLine, JsNum.inf)).2) :=
    foldl_simStep_posOrInf fileLines hnt A (startLine, JsNum.inf) hA (Or.inl rfl)
  rw [List.foldl_cons, simStep_match j _ hnt hj hp]
  exact foldl_simStep_zero _ fileLines B (j + 1, JsNum.val 0) rfl

/-- C4 witness: the target `"ab"` matches line 2 of `["x", "ab"]` exactly, and the
search reports similarity `0` at line 2. -/
theorem findMostSimilarLine_exact_match_witness :
    findMostSimilarLine "ab" ["x", "ab"] 0 2 = (2, JsNum.val 0) := by
  have h := findMostSimilarLine_exact_match "ab" ["x", "ab"] 0 2 1 [0] []
    (by decide) (by decide) (by decide) (by decide)
  simpa using h

/-- C4 counterexample: the claim fails for a target whose normalised form is
empty.  Here `" "` normalises to the empty string, which occurs verbatim as the
normalised form of the (only, in-window) line `""`, yet the function returns the
initial best `(startLine, Infinity)`, not similarity `0` at line 1: the score is
`0/0 = NaN` and `NaN < Infinity` is false in JavaScript. -/
theorem findMostSimilarLine_exact_match_counterexample :
    (0 : ℤ) ∈ windowIdxs [""] 0 1 ∧
    normalizeCode ((([""] : List String).getD (0 : ℤ).toNat "").toList) =
      normalizeCode (" ".toList) ∧
    findMostSimilarLine " " [""] 0 1 = (0, JsNum.inf) ∧
    findMostSimilarLine " " [""] 0 1 ≠ (1, JsNum.val 0) := by
  refine ⟨by decide, by decide, by decide, ?_⟩
  intro h
  have : (0 : ℤ) = 1 := congrArg Prod.fst h
  cases this

/-! ### Diff parsing (`parseDiffToChangedLines`, src/src/utils.ts:368-391)

The same hunk-scanning loop appears inline in `GitHubAdapter.validateComments`
(src/src/adapter.ts:252-283); both are embedded by the definitions below.
JavaScript strings are modelled as `List Char`; `splitNl` is `split('\n')` and
`startsWithL` is `String.prototype.startsWith`.  The hunk-header regex
`@@ -\d+(?:,\d+)? \+(\d+)(?:,\d+)? @@` is unanchored, so `searchHunk` looks for
the leftmost position where the pattern matches and extracts the captured
destination start `c`; the running counter is then reset to `c - 1`. -/

def splitNl : List Char → List (List Char)
  | [] => [[]]
  | c :: cs =>
    if c = '\n' then [] :: splitNl cs
    else
      match splitNl cs with
      | [] => [[c]]
      | g :: gs => (c :: g) :: gs

/-- Consume a literal from the front of the input, or fail. -/
def eatLit : List Char → List Char → Option (List Char)
  | [], l => some l
  | _ :: _, [] => none
  | p :: ps, c :: cs => if c = p then eatLit ps cs else none

def startsWithL (pat l : List Char) : Bool :=
  (eatLit pat l).isSome

def digitsToNat (ds : List Char) : ℕ :=
  ds.foldl (fun n c => 10 * n + (c.toNat - '0'.toNat)) 0

/-- Greedy `\d+`: at least one digit, maximal run, returning value and rest. -/
def parseNum (l : List Char) : Option (ℕ × List Char) :=
  if (l.takeWhile Char.isDigit).isEmpty then none
  else some (digitsToNat (l.takeWhile Char.isDigit), l.dropWhile Char.isDigit)

/-- Optional `(?:,\d+)?`: consume a comma followed by digits if present. -/
def optCommaNum (l : List Char) : List Char :=
  match l with
  | ',' :: rest =>
    match parseNum rest with
    | some p => p.2
    | none => ',' :: rest
  | _ => l

/-- Match `@@ -\d+(?:,\d+)? \+(\d+)(?:,\d+)? @@` at the start of `l`, returning
the captured new-start number. -/
def matchHunkAt (l : List Char) : Option ℕ :=
  (eatLit "@@ -".toList l).bind fun l1 =>
    (parseNum l1).bind fun p1 =>
      (eatLit " +".toList (optCommaNum p1.2)).bind fun l3 =>
        (parseNum l3).bind fun p2 =>
          (eatLit " @@".toList (optCommaNum p2.2)).map fun _ => p2.1

/-- Leftmost regex match over the line (the JavaScript regex is unanchored). -/
def searchHunk : List Char → Option ℕ
  | [] => matchHunkAt []
  | c :: rest =>
    match matchHunkAt (c :: rest) with
    | some n => some n
    | none => searchHunk rest

/-- Model of `Set.prototype.add`: a JavaScript `Set` keeps insertion order and
ignores duplicates, so the set of changed lines is a duplicate-free list. -/
def setAdd (l : List ℤ) (x : ℤ) : List ℤ :=
  if x ∈ l then l else l ++ [x]

/-- The scanning loop of `parseDiffToChangedLines`: `cur` is the running
destination-line counter (an integer, since `c - 1` can be `-1` for `+0`
headers), `acc` the set built so far. -/
def parseDiffLoop : List (List Char) → ℤ → List ℤ → List ℤ
  | [], _, acc => acc
  | line :: rest, cur, acc =>
    if startsWithL "@@".toList line then
      match searchHunk line with
      | some c => parseDiffLoop rest ((c : ℤ) - 1) acc
      | none => parseDiffLoop rest cur acc
    else
      parseDiffLoop rest
        (if startsWithL "-".toList line then cur else cur + 1)
        (if startsWithL "+".toList line then setAdd acc cur else acc)

/-- Embedding of `parseDiffToChangedLines` (src/src/utils.ts:368-391), returning
the changed-line set in insertion order. -/
def parseDiffToChangedLines (patch : List Char) : List ℤ :=
  parseDiffLoop (splitNl patch) 0 []

example : searchHunk "@@ -1,3 +1,4 @@".toList = some 1 := by decide
example : searchHunk "@@ -10 +27,4 @@ foo".toList = some 27 := by decide
example : searchHunk "@@ garbage".toList = none := by decide

/-- C1: evaluation of `parseDiffToChangedLines` at the specification's own
example.  The added line `+line2` occupies destination line 2, but the code
records the counter value before incrementing it, so the function returns
`{1}`, not `{2}`: every recorded number is the destination line number of the
added line minus one. -/
theorem parseDiff_example_off_by_one :
    parseDiffToChangedLines
        "@@ -1,3 +1,4 @@\n line1\n+line2\n line3\n-line4\n line5".toList = [1] ∧
    (2 : ℤ) ∉ parseDiffToChangedLines
        "@@ -1,3 +1,4 @@\n line1\n+line2\n line3\n-line4\n line5".toList := by
  constructor <;> decide

/-! ### Comment validation (`GitHubAdapter.validateComments`, src/src/adapter.ts:229-366)

`validateComments` first fetches the pull request and its file list; the two
fetch outcomes are passed in as `Except` values (any rejection is caught by the
surrounding `try`/`catch`, which returns the input comments unchanged).  For
each file with a `patch` the changed-line set is computed with the inline copy
of the diff-parsing loop (identical to `parseDiffToChangedLines`); files without
a patch are recorded in `filesWithoutPatch`.  Comments are then kept, relocated
to the closest changed line (within distance 5, with a note prepended to the
body), or dropped. -/

structure ReviewComment where
  path : String
  line : ℤ
  body : List Char
deriving DecidableEq

structure PRFile where
  filename : String
  patch : Option (List Char)
deriving DecidableEq

/-- Membership of `comment.path` in the `filesWithoutPatch` set. -/
def hasNoPatchEntry (files : List PRFile) (path : String) : Bool :=
  files.any (fun f => f.filename == path && f.patch.isNone)

/-- Lookup in `changedLinesMap`: `Map.set` overwrites, so the last file with a
patch under this name wins. -/
def lastPatchFor (files : List PRFile) (path : String) : Option (List Char) :=
  files.foldl (fun acc f =>
    match f.patch with
    | some p => if f.filename == path then some p else acc
    | none => acc) none

/-- Model of `Array.from(changedLines).sort((a, b) => a - b)`: ascending order
of the insertion-ordered set. -/
def insertSorted (x : ℤ) : List ℤ → List ℤ
  | [] => [x]
  | y :: ys => if x ≤ y then x :: y :: ys else y :: insertSorted x ys

def sortAsc (l : List ℤ) : List ℤ :=
  l.foldr insertSorted []

/-- The `reduce` computing the closest changed line.  The initial value is
`sortedLines[0] || 1`: `undefined` (empty array) and `0` are falsy in
JavaScript, so both fall back to `1`. -/
def closestChangedLine (sorted : List ℤ) (line : ℤ) : ℤ :=
  sorted.foldl (fun closest current =>
    if |current - line| < |closest - line| then current else closest)
    (match sorted.head? with
     | none => 1
     | some h => if h = 0 then 1 else h)

/-- The `[Note: ...]` annotation prepended on relocation:
`` `[Note: This comment was originally meant for line ${comment.line}]\n\n` ``. -/
def noteChars (line : ℤ) : List Char :=
  "[Note: This comment was originally meant for line ".toList ++
    (if line < 0 then '-' :: Nat.toDigits 10 line.natAbs else Nat.toDigits 10 line.natAbs) ++
    "]\n\n".toList

/-- Validation of a single comment: `some` = kept (possibly relocated), `none` =
dropped.  Check order follows the source: `filesWithoutPatch` first, then the
changed-lines map, then set membership, then the snap-to-closest repair. -/
def validateOne (files : List PRFile) (c : ReviewComment) : Option ReviewComment :=
  if hasNoPatchEntry files c.path then some c
  else
    match lastPatchFor files c.path with
    | none => none
    | some p =>
      if c.line ∈ parseDiffToChangedLines p then some c
      else
        if |closestChangedLine (sortAsc (parseDiffToChangedLines p)) c.line - c.line| ≤ 5 then
          some ⟨c.path,
            closestChangedLine (sortAsc (parseDiffToChangedLines p)) c.line,
            noteChars c.line ++ c.body⟩
        else none

/-- The filtering loop of `validateComments` over all candidate comments. -/
def validateCommentsPure (files : List PRFile) (comments : List ReviewComment) :
    List ReviewComment :=
  comments.filterMap (validateOne files)

/-- Embedding of `validateComments` including its `try`/`catch`: if fetching the
pull request or the file list fails, the input list is returned unchanged. -/
def validateComments (prFetch : Except String Unit)
    (filesFetch : Except String (List PRFile))
    (comments : List ReviewComment) : List ReviewComment :=
  match prFetch, filesFetch with
  | Except.ok _, Except.ok files => validateCommentsPure files comments
  | _, _ => comments

/-- The list of comments `createReview` (src/src/adapter.ts:371-409) hands to
the forge: nothing when the input is empty, otherwise exactly the validated
list (the 422 fallback re-submits the same validated comments one by one). -/
def createReviewSubmitted (prFetch : Except String Unit)
    (filesFetch : Except String (List PRFile))
    (comments : List ReviewComment) : List ReviewComment :=
  if comments.isEmpty then [] else validateComments prFetch filesFetch comments

example : validateOne [⟨"f.ts", some "@@ -1,1 +1,2 @@\n ctx\n+added".toList⟩]
    ⟨"f.ts", 1, "b".toList⟩ = some ⟨"f.ts", 1, "b".toList⟩ := by decide

/-! ### Properties of the snap-to-closest repair -/

theorem mem_insertSorted (x y : ℤ) (l : List ℤ) :
    x ∈ insertSorted y l ↔ x = y ∨ x ∈ l := by
  induction l with
  | nil => simp [insertSorted]
  | cons z zs ih =>
    by_cases h : y ≤ z
    · simp [insertSorted, h]
    · simp only [insertSorted, if_neg h, List.mem_cons, ih]
      tauto

theorem mem_sortAsc (x : ℤ) (l : List ℤ) : x ∈ sortAsc l ↔ x ∈ l := by
  induction l with
  | nil => simp [sortAsc]
  | cons z zs ih =>
    simp only [sortAsc, List.foldr_cons] at ih ⊢
    rw [mem_insertSorted, ih, List.mem_cons]

theorem sortAsc_ne_nil {l : List ℤ} (h : l ≠ []) : sortAsc l ≠ [] := by
  cases l with
  | nil => exact absurd rfl h
  | cons z zs =>
    intro hs
    have : z ∈ sortAsc (z :: zs) := (mem_sortAsc z _).mpr (List.mem_cons_self z zs)
    rw [hs] at this
    cases this

theorem foldl_closest_mem (line : ℤ) (S : List ℤ) :
    ∀ (l : List ℤ), (∀ x ∈ l, x ∈ S) → ∀ a ∈ S,
      l.foldl (fun closest current =>
        if |current - line| < |closest - line| then current else closest) a ∈ S := by
  intro l
  induction l with
  | nil => intro _ a ha; exact ha
  | cons x xs ih =>
    intro hsub a ha
    rw [List.foldl_cons]
    by_cases h : |x - line| < |a - line|
    · rw [if_pos h]
      exact ih (fun y hy => hsub y (List.mem_cons_of_mem x hy)) x
        (hsub x (List.mem_cons_self x xs))
    · rw [if_neg h]
      exact ih (fun y hy => hsub y (List.mem_cons_of_mem x hy)) a ha

theorem foldl_closest_le_init (line : ℤ) :
    ∀ (l : List ℤ) (a : ℤ),
      |l.foldl (fun closest current =>
        if |current - line| < |closest - line| then current else closest) a - line| ≤
        |a - line| := by
  intro l
  induction l with
  | nil => intro a; exact le_refl _
  | cons x xs ih =>
    intro a
    rw [List.foldl_cons]
    by_cases h : |x - line| < |a - line|
    · rw [if_pos h]
      exact le_trans (ih x) (le_of_lt h)
    · rw [if_neg h]
      exact ih a

theorem foldl_closest_min (line : ℤ) :
    ∀ (l : List ℤ) (a : ℤ), ∀ d ∈ l,
      |l.foldl (fun closest current =>
        if |current - line| < |closest - line| then current else closest) a - line| ≤
        |d - line| := by
  intro l
  induction l with
  | nil => intro a d hd; cases hd
  | cons x xs ih =>
    intro a d hd
    rw [List.foldl_cons]
    rcases List.mem_cons.mp hd with rfl | hmem
    · by_cases h : |d - line| < |a - line|
      · rw [if_pos h]
        exact foldl_closest_le_init line xs d
      · rw [if_neg h]
        exact le_trans (foldl_closest_le_init line xs a) (not_lt.mp h)
    · by_cases h : |x - line| < |a - line|
      · rw [if_pos h]
        exact ih x d hmem
      · rw [if_neg h]
        exact ih a d hmem

theorem closestChangedLine_cons (h : ℤ) (t : List ℤ) (line : ℤ) (hh0 : h ≠ 0) :
    closestChangedLine (h :: t) line =
      (h :: t).foldl (fun closest current =>
        if |current - line| < |closest - line| then current else closest) h := by
  unfold closestChangedLine
  simp only [List.head?_cons]
  rw [if_neg hh0]

theorem closestChangedLine_mem {S : List ℤ} (line : ℤ) (hne : S ≠ [])
    (h0 : (0 : ℤ) ∉ S) : closestChangedLine (sortAsc S) line ∈ S := by
  rcases hs : sortAsc S with _ | ⟨h, t⟩
  · exact absurd hs (sortAsc_ne_nil hne)
  · have hmemS : ∀ x ∈ h :: t, x ∈ S := by
      intro x hx
      rw [← hs] at hx
      exact (mem_sortAsc x S).mp hx
    have hh : h ∈ S := hmemS h (List.mem_cons_self h t)
    have hh0 : h ≠ 0 := by rintro rfl; exact h0 hh
    rw [closestChangedLine_cons h t line hh0]
    exact foldl_closest_mem line S (h :: t) hmemS h hh

theorem closestChangedLine_min {S : List ℤ} (line : ℤ) (hne : S ≠ [])
    (h0 : (0 : ℤ) ∉ S) :
    ∀ d ∈ S, |closestChangedLine (sortAsc S) line - line| ≤ |d - line| := by
  intro d hd
  rcases hs : sortAsc S with _ | ⟨h, t⟩
  · exact absurd hs (sortAsc_ne_nil hne)
  · have hh : h ∈ S := (mem_sortAsc h S).mp (by rw [hs]; exact List.mem_cons_self h t)
    have hh0 : h ≠ 0 := by rintro rfl; exact h0 hh
    rw [closestChangedLine_cons h t line hh0]
    exact foldl_closest_min line (h :: t) h d (by rw [← hs, mem_sortAsc]; exact hd)

/-! ### C2, C3, C9 -/

/-- C2 (amended): every comment surviving a successful validation pass whose
file is not in `filesWithoutPatch` and whose patch parses to a nonempty
changed-line set not containing `0` has its line in that set.  (The amendment is
forced by the `sortedLines[0] || 1` fallback: when the set is empty, or its
smallest element is `0` — both falsy in JavaScript — the repair may relocate a
comment to line 1 even though 1 is not a changed line.) -/
theorem validator_keeps_lines_in_diff
    (files : List PRFile) (comments : List ReviewComment) (c : ReviewComment)
    (hc : c ∈ validateComments (Except.ok ()) (Except.ok files) comments)
    (hnp : hasNoPatchEntry files c.path = false)
    (p : List Char) (hp : lastPatchFor files c.path = some p)
    (hne : parseDiffToChangedLines p ≠ [])
    (h0 : (0 : ℤ) ∉ parseDiffToChangedLines p) :
    c.line ∈ parseDiffToChangedLines p := by
  have hc' : c ∈ comments.filterMap (validateOne files) := hc
  obtain ⟨c₀, _, heq⟩ := List.mem_filterMap.mp hc'
  unfold validateOne at heq
  by_cases h1 : hasNoPatchEntry files c₀.path = true
  · rw [if_pos h1] at heq
    injection heq with h
    subst h
    rw [hnp] at h1
    cases h1
  · rw [if_neg h1] at heq
    rcases hl : lastPatchFor files c₀.path with _ | q
    · simp only [hl] at heq
      exact Option.noConfusion heq
    · simp only [hl] at heq
      by_cases h2 : c₀.line ∈ parseDiffToChangedLines q
      · rw [if_pos h2] at heq
        injection heq with h
        subst h
        have hq : q = p := Option.some.inj (hl.symm.trans hp)
        subst hq
        exact h2
      · rw [if_neg h2] at heq
        by_cases h3 : |closestChangedLine (sortAsc (parseDiffToChangedLines q)) c₀.line -
            c₀.line| ≤ 5
        · rw [if_pos h3] at heq
          injection heq with h
          subst h
          have hp' : lastPatchFor files c₀.path = some p := hp
          have hq : q = p := Option.some.inj (hl.symm.trans hp')
          subst hq
          exact closestChangedLine_mem c₀.line hne h0
        · rw [if_neg h3] at heq
          cases heq

/-- C2 witness: a comment on changed line 1 of a file whose patch marks exactly
line 1 as changed survives validation with its line in the changed set. -/
theorem validator_keeps_lines_in_diff_witness :
    (1 : ℤ) ∈ parseDiffToChangedLines "@@ -1,1 +1,2 @@\n ctx\n+added".toList := by
  have h := validator_keeps_lines_in_diff
    [⟨"f.ts", some "@@ -1,1 +1,2 @@\n ctx\n+added".toList⟩]
    [⟨"f.ts", 1, "b".toList⟩] ⟨"f.ts", 1, "b".toList⟩
    (by decide) (by decide) "@@ -1,1 +1,2 @@\n ctx\n+added".toList
    (by decide) (by decide) (by decide)
  exact h

/-- C2 counterexample: the claim as stated fails when a file's patch parses to
an empty changed-line set (a deletion-only patch).  The comment at line 3 is
relocated to line 1 (via the `sortedLines[0] || 1` fallback) and submitted even
though its file has a patch and line 1 is not in the parsed changed-line set. -/
theorem validator_out_of_diff_counterexample :
    List.map ReviewComment.line (validateComments (Except.ok ())
        (Except.ok [⟨"f.ts", some "@@ -1,2 +1,1 @@\n line1\n-line2".toList⟩])
        [⟨"f.ts", 3, "b".toList⟩]) = [1] ∧
    (1 : ℤ) ∉ parseDiffToChangedLines "@@ -1,2 +1,1 @@\n line1\n-line2".toList ∧
    hasNoPatchEntry [⟨"f.ts", some "@@ -1,2 +1,1 @@\n line1\n-line2".toList⟩] "f.ts" =
      false := by
  refine ⟨by decide, by decide, by decide⟩

/-- C3 (amended): for a comment whose file has a patch with a nonempty
changed-line set not containing `0`, and whose line is not in that set, the
validator picks a changed line of minimum absolute distance to the proposed
line; at distance at most 5 it relocates the comment there and prepends the
disclosure note, otherwise it drops the comment.  (The amendment is forced by
the `sortedLines[0] || 1` fallback, which replaces an empty or `0`-headed
sorted array by `1` — see the counterexample.) -/
theorem validator_snap_to_closest
    (files : List PRFile) (c : ReviewComment)
    (hnp : hasNoPatchEntry files c.path = false)
    (p : List Char) (hp : lastPatchFor files c.path = some p)
    (hnotin : c.line ∉ parseDiffToChangedLines p)
    (hne : parseDiffToChangedLines p ≠ [])
    (h0 : (0 : ℤ) ∉ parseDiffToChangedLines p) :
    closestChangedLine (sortAsc (parseDiffToChangedLines p)) c.line ∈
      parseDiffToChangedLines p ∧
    (∀ d ∈ parseDiffToChangedLines p,
      |closestChangedLine (sortAsc (parseDiffToChangedLines p)) c.line - c.line| ≤
        |d - c.line|) ∧
    (|closestChangedLine (sortAsc (parseDiffToChangedLines p)) c.line - c.line| ≤ 5 →
      validateOne files c = some ⟨c.path,
        closestChangedLine (sortAsc (parseDiffToChangedLines p)) c.line,
        noteChars c.line ++ c.body⟩) ∧
    (5 < |closestChangedLine (sortAsc (parseDiffToChangedLines p)) c.line - c.line| →
      validateOne files c = none) := by
  refine ⟨closestChangedLine_mem c.line hne h0, closestChangedLine_min c.line hne h0,
    ?_, ?_⟩
  · intro h5
    unfold validateOne
    rw [if_neg (by rw [hnp]; exact Bool.false_ne_true)]
    simp only [hp]
    rw [if_neg hnotin, if_pos h5]
  · intro h5
    unfold validateOne
    rw [if_neg (by rw [hnp]; exact Bool.false_ne_true)]
    simp only [hp]
    rw [if_neg hnotin, if_neg (not_le.mpr h5)]

/-- C3 witness: sole changed line 3, comment at line 1 (distance 2): relocated
to line 3 with the note prepended. -/
theorem validator_snap_to_closest_witness :
    validateOne [⟨"h.ts", some "@@ -1,1 +1,4 @@\n a\n b\n c\n+d".toList⟩]
        ⟨"h.ts", 1, "b".toList⟩ =
      some ⟨"h.ts",
        closestChangedLine
          (sortAsc (parseDiffToChangedLines "@@ -1,1 +1,4 @@\n a\n b\n c\n+d".toList)) 1,
        noteChars 1 ++ "b".toList⟩ := by
  have h := validator_snap_to_closest
    [⟨"h.ts", some "@@ -1,1 +1,4 @@\n a\n b\n c\n+d".toList⟩] ⟨"h.ts", 1, "b".toList⟩
    (by decide) "@@ -1,1 +1,4 @@\n a\n b\n c\n+d".toList
    (by decide) (by decide) (by decide) (by decide)
  exact h.2.2.1 (by decide)

/-- C3 counterexample: when `0` is a changed line (a `+` line directly after a
hunk header, given the parser's off-by-one), the `sortedLines[0] || 1` fallback
treats the leading `0` as falsy and seeds the reduce with `1`.  For a comment at
line 2 the unique changed line `0` is at distance 2 ≤ 5, yet the validator
relocates the comment to line 1 — which is not a changed line — instead of
relocating it to the minimum-distance changed line. -/
theorem validator_snap_counterexample :
    parseDiffToChangedLines "@@ -1,1 +1,2 @@\n+added\n ctx".toList = [0] ∧
    validateOne [⟨"g.ts", some "@@ -1,1 +1,2 @@\n+added\n ctx".toList⟩]
        ⟨"g.ts", 2, "b".toList⟩ =
      some ⟨"g.ts", 1, noteChars 2 ++ "b".toList⟩ ∧
    (1 : ℤ) ∉ parseDiffToChangedLines "@@ -1,1 +1,2 @@\n+added\n ctx".toList := by
  refine ⟨by decide, by decide, by decide⟩

/-- C9: a failure while fetching the pull request or its file list is caught by
`validateComments`, which returns the input comments unchanged, so
`createReview` submits every candidate comment with validation bypassed. -/
theorem validateComments_catch_returns_input
    (e : String) (prFetch : Except String Unit)
    (filesFetch : Except String (List PRFile)) (comments : List ReviewComment) :
    validateComments (Except.error e) filesFetch comments = comments ∧
    validateComments prFetch (Except.error e) comments = comments ∧
    (comments ≠ [] →
      createReviewSubmitted (Except.error e) filesFetch comments = comments) := by
  refine ⟨?_, ?_, ?_⟩
  · cases filesFetch <;> rfl
  · cases prFetch <;> rfl
  · intro h
    unfold createReviewSubmitted
    rw [if_neg (by rw [List.isEmpty_iff]; exact h)]
    cases filesFetch <;> rfl

/-- C9 witness: with a failing pull-request fetch, the single candidate comment
is passed through and submitted unvalidated. -/
theorem validateComments_catch_returns_input_witness :
    validateComments (Except.error "boom") (Except.ok []) [⟨"a.ts", 1, "x".toList⟩] =
      [⟨"a.ts", 1, "x".toList⟩] ∧
    createReviewSubmitted (Except.error "boom") (Except.ok [])
        [⟨"a.ts", 1, "x".toList⟩] = [⟨"a.ts", 1, "x".toList⟩] := by
  have h := validateComments_catch_returns_input "boom" (Except.ok ()) (Except.ok [])
    [⟨"a.ts", 1, "x".toList⟩]
  exact ⟨h.1, h.2.2 (by decide)⟩

/-! ### Retry wrapper (`withRetry`, src/src/utils/retry.ts:3-13, src/src/utils.ts:48-59)

The operation is modelled as an oracle indexed by the attempt number; `i` is the
index of the next call.  The fixed `delay(retryDelay)` between attempts only
consumes time and is not modelled. -/

def withRetry {α : Type} (op : ℕ → Except String α) : ℕ → ℕ → Except String α
  | 0, i =>
    match op i with
    | Except.ok a => Except.ok a
    | Except.error e => Except.error e
  | r + 1, i =>
    match op i with
    | Except.ok a => Except.ok a
    | Except.error _ => withRetry op r (i + 1)

/-- Number of times `withRetry` invokes the operation. -/
def withRetryCalls {α : Type} (op : ℕ → Except String α) : ℕ → ℕ → ℕ
  | 0, i =>
    match op i with
    | Except.ok _ => 1
    | Except.error _ => 1
  | r + 1, i =>
    match op i with
    | Except.ok _ => 1
    | Except.error _ => withRetryCalls op r (i + 1) + 1

theorem withRetry_always_error {α : Type} (op : ℕ → Except String α)
    (f : ℕ → String) (hop : ∀ n, op n = Except.error (f n)) :
    ∀ r i, withRetry op r i = Except.error (f (i + r)) ∧
      withRetryCalls op r i = r + 1 := by
  intro r
  induction r with
  | zero =>
    intro i
    constructor
    · simp [withRetry, hop i]
    · simp [withRetryCalls, hop i]
  | succ r ih =>
    intro i
    constructor
    · simp only [withRetry, hop i]
      rw [(ih (i + 1)).1]
      rw [show i + 1 + r = i + (r + 1) from by omega]
    · simp only [withRetryCalls, hop i]
      rw [(ih (i + 1)).2]

/-- C5: on an operation that fails at every invocation, `withRetry` with
`retries = 3` invokes the operation exactly 4 times (1 initial attempt plus 3
retries) and propagates the error of the last (fourth) call unchanged. -/
theorem withRetry_permanent_failure {α : Type} (op : ℕ → Except String α)
    (f : ℕ → String) (hop : ∀ n, op n = Except.error (f n)) :
    withRetry op 3 0 = Except.error (f 3) ∧ withRetryCalls op 3 0 = 4 := by
  have h := withRetry_always_error op f hop 3 0
  simpa using h

/-- C5 witness: the operation failing with the stringified attempt index is
called 4 times and the final error is that of attempt 3. -/
theorem withRetry_permanent_failure_witness :
    withRetry (fun n => (Except.error (toString n) : Except String Unit)) 3 0 =
      Except.error (toString 3) ∧
    withRetryCalls (fun n => (Except.error (toString n) : Except String Unit)) 3 0 = 4 :=
  withRetry_permanent_failure (fun n => (Except.error (toString n) : Except String Unit))
    (fun n => toString n) (fun _ => rfl)

/-! ### JSON model and the issue-to-comment mappers

`JsValue` models the values `JSON.parse` can produce (numbers restricted to the
integers, which is all the pipeline ever treats them as).  `jsGet` is property
access on a parsed value: `undefined` (here `none`) for a missing key or a
non-object; duplicate keys keep the last occurrence, as in `JSON.parse`. -/

inductive JsValue where
  | null : JsValue
  | bool : Bool → JsValue
  | num : ℤ → JsValue
  | str : String → JsValue
  | arr : List JsValue → JsValue
  | obj : List (String × JsValue) → JsValue

def jsGet (v : JsValue) (k : String) : Option JsValue :=
  match v with
  | JsValue.obj fields =>
    fields.foldl (fun acc kv => if kv.1 == k then some kv.2 else acc) none
  | _ => none

def isNullJs : JsValue → Bool
  | JsValue.null => true
  | _ => false

/-- The guard `!analysis.issues || !Array.isArray(analysis.issues)`: the
analysis proceeds exactly when the `issues` property is an array (an array is
always truthy in JavaScript; every non-array value fails `Array.isArray`). -/
def issuesArray? (v : JsValue) : Option (List JsValue) :=
  match jsGet v "issues" with
  | some (JsValue.arr l) => some l
  | _ => none

/-- `type.charAt(0).toUpperCase() + type.slice(1)` (empty string untouched). -/
def titleCase (s : String) : String :=
  match s.toList with
  | [] => ""
  | c :: rest => String.mk (Char.toUpper c :: rest)

/-- The comment-body template shared by both mappers (src/src/utils.ts:282,
src/src/analysis/analyzer.ts:101): category icon (default `⚡`), title-cased raw
type as heading, description, fixed follow-up footer. -/
def mkBody (ty desc : String) : String :=
  "### " ++ (if ty = "quality" then "📝" else if ty = "security" then "🔒" else "⚡") ++
    " " ++ titleCase ty ++ "\n" ++ desc ++
    "\n\n*Чтобы задать вопрос, начните текст с @ai или /ai*"

/-- Structural field check of `analyzeCodeContent` (src/src/utils.ts:243-249):
each field must be truthy (`0` and `""` are falsy) and of the right `typeof`. -/
def checkIssueUtils (issue : JsValue) : Option (ℤ × String × String × String) :=
  match jsGet issue "line", jsGet issue "code", jsGet issue "type",
      jsGet issue "description" with
  | some (JsValue.num n), some (JsValue.str code), some (JsValue.str ty),
      some (JsValue.str desc) =>
    if n ≠ 0 ∧ code ≠ "" ∧ ty ≠ "" ∧ desc ≠ "" then some (n, code, ty, desc) else none
  | _, _, _, _ => none

/-- The issue loop of `analyzeCodeContent` (src/src/utils.ts:241-284).  A `null`
array element makes the property access `issue.line` throw (`none`), which the
surrounding `catch` turns into an empty result; invalid issues are skipped, a
similarity above 0.5 or an out-of-file matched line skips the issue, otherwise a
comment is pushed. -/
def analyzeIssuesLoop (filePath : String) (fileLines : List String) :
    List JsValue → List ReviewComment → Option (List ReviewComment)
  | [], acc => some acc
  | issue :: rest, acc =>
    if isNullJs issue then none
    else
      match checkIssueUtils issue with
      | none => analyzeIssuesLoop filePath fileLines rest acc
      | some (n, code, ty, desc) =>
        if jsLt (JsNum.val (1 / 2))
            (findMostSimilarLine code fileLines (max 0 (n - 50))
              (min (fileLines.length : ℤ) (n + 50))).2 then
          analyzeIssuesLoop filePath fileLines rest acc
        else if (findMostSimilarLine code fileLines (max 0 (n - 50))
            (min (fileLines.length : ℤ) (n + 50))).1 ≤ 0 ∨
            (fileLines.length : ℤ) <
              (findMostSimilarLine code fileLines (max 0 (n - 50))
                (min (fileLines.length : ℤ) (n + 50))).1 then
          analyzeIssuesLoop filePath fileLines rest acc
        else
          analyzeIssuesLoop filePath fileLines rest
            (acc ++ [⟨filePath,
              (findMostSimilarLine code fileLines (max 0 (n - 50))
                (min (fileLines.length : ℤ) (n + 50))).1,
              (mkBody ty desc).toList⟩])

/-- Embedding of the response handling of `analyzeCodeContent`
(src/src/utils.ts:220-294): `parsed` is the outcome of `JSON.parse` on the LLM
message content (`none` = the parse threw).  Every failure path yields `[]`. -/
def analyzeCodeContentCore (filePath content : String) (parsed : Option JsValue) :
    List ReviewComment :=
  match parsed with
  | none => []
  | some analysis =>
    match issuesArray? analysis with
    | none => []
    | some issues =>
      match analyzeIssuesLoop filePath
          ((if content.length > 30000 then content.take 30000 else content).splitOn "\n")
          issues [] with
      | none => []
      | some r => r

/-- C6: an LLM response that is not valid JSON, or parses to a value without an
`issues` array, produces an empty comment list for the file; no exception
escapes (the model is total), so the per-file loop in the controller continues
with the remaining files. -/
theorem analyzeCodeContent_malformed_json (filePath content : String) :
    analyzeCodeContentCore filePath content none = [] ∧
    ∀ v : JsValue, issuesArray? v = none →
      analyzeCodeContentCore filePath content (some v) = [] := by
  constructor
  · rfl
  · intro v hv
    unfold analyzeCodeContentCore
    simp only [hv]

/-- C6 witness: a bare-string response (no `issues` array) yields no comments. -/
theorem analyzeCodeContent_malformed_json_witness :
    analyzeCodeContentCore "a.ts" "x" none = [] ∧
    analyzeCodeContentCore "a.ts" "x" (some (JsValue.str "oops")) = [] := by
  have h := analyzeCodeContent_malformed_json "a.ts" "x"
  exact ⟨h.1, h.2 (JsValue.str "oops") rfl⟩

/-- Structural filter of `analyzeFile` (src/src/analysis/analyzer.ts:82-87):
pure `typeof` checks, no truthiness requirement and no membership test on the
issue's `type`. -/
def checkIssueAnalyzer (issue : JsValue) : Bool :=
  match jsGet issue "line", jsGet issue "code", jsGet issue "type",
      jsGet issue "description" with
  | some (JsValue.num _), some (JsValue.str _), some (JsValue.str _),
      some (JsValue.str _) => true
  | _, _, _, _ => false

/-- Per-issue mapping of `analyzeFile` (src/src/analysis/analyzer.ts:88-104):
the filter above, then the similarity search with threshold 0.3, then the body
template. -/
def analyzeFileIssue (filename : String) (fileLines : List String) (issue : JsValue) :
    Option ReviewComment :=
  match jsGet issue "line", jsGet issue "code", jsGet issue "type",
      jsGet issue "description" with
  | some (JsValue.num n), some (JsValue.str code), some (JsValue.str ty),
      some (JsValue.str desc) =>
    if jsLt (JsNum.val (3 / 10))
        (findMostSimilarLine code fileLines (max 0 (n - 30))
          (min (fileLines.length : ℤ) (n + 30))).2 then none
    else some ⟨filename,
      (findMostSimilarLine code fileLines (max 0 (n - 30))
        (min (fileLines.length : ℤ) (n + 30))).1,
      (mkBody ty desc).toList⟩
  | _, _, _, _ => none

/-- Embedding of `analyzeFile` (src/src/analysis/analyzer.ts:28-105) after the
LLM call: `analysis` is the parsed response (`none` = `analyzeCode` threw). -/
def analyzeFileCore (filename fileContent : String) (analysis : Option JsValue) :
    List ReviewComment :=
  match analysis with
  | none => []
  | some a =>
    match issuesArray? a with
    | none => []
    | some issues =>
      issues.filterMap (analyzeFileIssue filename
        ((if fileContent.length > 30000 then fileContent.take 30000 else fileContent).splitOn
          "\n"))

/-- A well-typed issue object as produced by `JSON.parse`. -/
def mkIssueObj (n : ℤ) (code ty desc : String) : JsValue :=
  JsValue.obj [("line", JsValue.num n), ("code", JsValue.str code),
    ("type", JsValue.str ty), ("description", JsValue.str desc)]

/-- C10: the structural check only requires `type` to be a string — an issue
whose `type` is any string outside {quality, security, performance} is still
accepted — and the body template then uses the `⚡` icon with the title-cased
raw type string as the heading. -/
theorem mapper_accepts_any_type_string (n : ℤ) (code ty desc : String)
    (hq : ty ≠ "quality") (hsec : ty ≠ "security") (_hperf : ty ≠ "performance") :
    checkIssueAnalyzer (mkIssueObj n code ty desc) = true ∧
    mkBody ty desc = "### ⚡ " ++ titleCase ty ++ "\n" ++ desc ++
      "\n\n*Чтобы задать вопрос, начните текст с @ai или /ai*" := by
  constructor
  · rfl
  · unfold mkBody
    rw [if_neg hq, if_neg hsec]
    rfl

/-- C10 witness: an issue typed `"style"` passes the structural check and its
body heading is `### ⚡ Style`. -/
theorem mapper_accepts_any_type_string_witness :
    checkIssueAnalyzer (mkIssueObj 3 "let x" "style" "bad") = true ∧
    mkBody "style" "bad" = "### ⚡ " ++ titleCase "style" ++ "\n" ++ "bad" ++
      "\n\n*Чтобы задать вопрос, начните текст с @ai или /ai*" :=
  mapper_accepts_any_type_string 3 "let x" "style" "bad" (by decide) (by decide)
    (by decide)

end AiReview
